import Mathlib

/-!
Verification of the chunking and retrieval pipeline of a RAG course
assistant, against its natural-language specification.

Python strings are embedded as `List Char`.  The splitter
(`src/text_splitter.py`), the per-document aggregation
(`TextSplitter.split_documents`), and the vector-store write/read path
(`src/vector_store.py`) are translated function by function.  The
persistent vector collection and the embedding service are external
collaborators of the repository; they are modelled from the spec (see the
`Store` section below).
-/

/-- Python strings, embedded as lists of characters. -/
abbrev Str := List Char

/-- Characters removed by Python `str.strip()` (the ASCII whitespace
characters; exotic unicode whitespace is out of scope for this corpus). -/
def pyIsSpace (c : Char) : Bool :=
  c == ' ' || c == '\t' || c == '\n' || c == '\r' || c == '\x0b' || c == '\x0c'

/-- Python `str.lstrip()`. -/
def lstrip (s : Str) : Str := s.dropWhile pyIsSpace

/-- Python `str.rstrip()`. -/
def rstrip (s : Str) : Str := (s.reverse.dropWhile pyIsSpace).reverse

/-- Python `str.strip()`. -/
def strip (s : Str) : Str := lstrip (rstrip s)

/-- Coerce a Lean string literal to the `List Char` embedding. -/
def str (s : String) : Str := s.data

/-- Membership in the Python string `sentence_endings = "。！？.!?\n\n"`
(`char in sentence_endings`); as a set of characters the doubled `\n`
contributes the single character `\n`. -/
def isEnding (c : Char) : Bool :=
  c == '。' || c == '！' || c == '？' || c == '.' || c == '!' || c == '?' || c == '\n'

/-- The sentence-segmentation loop of `TextSplitter.split_text`
(src/text_splitter.py lines 26-52), translated literally: scan character
by character accumulating `cur`; when the character is a terminator,
absorb the immediately-following run of the *same* character
(`text[j] in sentence_endings and text[j] == char`), strip the unit, keep
it if non-empty, and reset the accumulator; at the end flush the
remaining accumulator if it strips non-empty. -/
def scanSentences : Str → Str → List Str
  | [], cur => if strip cur = [] then [] else [strip cur]
  | c :: rest, cur =>
    if isEnding c = true then
      (if strip (cur ++ c :: rest.takeWhile (fun d => d == c)) = []
       then scanSentences (rest.dropWhile (fun d => d == c)) []
       else strip (cur ++ c :: rest.takeWhile (fun d => d == c)) ::
              scanSentences (rest.dropWhile (fun d => d == c)) [])
    else scanSentences rest (cur ++ [c])
termination_by t _ => t.length
decreasing_by
  · exact Nat.lt_succ_of_le (List.dropWhile_sublist _).length_le
  · exact Nat.lt_succ_of_le (List.dropWhile_sublist _).length_le
  · exact Nat.lt_succ_of_le (Nat.le_refl _)

/-- Structurally recursive reformulation of `scanSentences`, used so that
concrete inputs evaluate inside the kernel: absorbing the maximal run of
an identical terminator is the same as closing the sentence at the *last*
character of such a run, i.e. when the scanned character is a terminator
and the next character differs from it.  `scanRun_eq_scanSentences` below
proves the two scanners equal. -/
def scanRun : Str → Str → List Str
  | [], cur => if strip cur = [] then [] else [strip cur]
  | c :: rest, cur =>
    if isEnding c = true ∧ rest.head? ≠ some c then
      (if strip (cur ++ [c]) = [] then [] else [strip (cur ++ [c])]) ++ scanRun rest []
    else scanRun rest (cur ++ [c])

/-- The sentence list produced by the segmentation step of
`TextSplitter.split_text` on a text. -/
def sentences (text : Str) : List Str := scanSentences text []

/-- Single unfolding of `scanRun` on a cons cell. -/
theorem scanRun_cons (c : Char) (rest cur : Str) :
    scanRun (c :: rest) cur =
      if isEnding c = true ∧ rest.head? ≠ some c then
        (if strip (cur ++ [c]) = [] then [] else [strip (cur ++ [c])]) ++ scanRun rest []
      else scanRun rest (cur ++ [c]) := rfl

/-- One closing step of the structural scanner, phrased in the
run-absorption form of the source loop. -/
theorem scanRun_close (c : Char) (rest cur : Str) (hc : isEnding c = true) :
    scanRun (c :: rest) cur =
      (if strip (cur ++ c :: rest.takeWhile (fun d => d == c)) = [] then []
       else [strip (cur ++ c :: rest.takeWhile (fun d => d == c))]) ++
        scanRun (rest.dropWhile (fun d => d == c)) [] := by
  induction rest generalizing cur with
  | nil => rw [scanRun_cons]; simp [hc]
  | cons d rs ih =>
    by_cases hd : d = c
    · subst hd
      have h1 : scanRun (d :: d :: rs) cur = scanRun (d :: rs) (cur ++ [d]) := by
        rw [scanRun_cons]
        simp [List.head?]
      rw [h1, ih (cur ++ [d])]
      have htk : (d :: rs).takeWhile (fun e => e == d) = d :: rs.takeWhile (fun e => e == d) := by
        simp
      have hdp : (d :: rs).dropWhile (fun e => e == d) = rs.dropWhile (fun e => e == d) := by
        simp
      rw [htk, hdp]
      simp [List.append_assoc]
    · have hbeq : (d == c) = false := beq_false_of_ne hd
      have h1 : scanRun (c :: d :: rs) cur =
          (if strip (cur ++ [c]) = [] then [] else [strip (cur ++ [c])]) ++
            scanRun (d :: rs) [] := by
        rw [scanRun_cons]
        have hcond : (isEnding c = true ∧ (d :: rs).head? ≠ some c) :=
          ⟨hc, by simp [hd]⟩
        rw [if_pos hcond]
      rw [h1]
      have htk : (d :: rs).takeWhile (fun e => e == c) = [] := by
        simp [hbeq]
      have hdp : (d :: rs).dropWhile (fun e => e == c) = d :: rs := by
        simp [hbeq]
      rw [htk, hdp]

theorem scanSentences_eq_scanRun (t : Str) (cur : Str) :
    scanSentences t cur = scanRun t cur := by
  have key : ∀ n (t cur : Str), t.length = n → scanSentences t cur = scanRun t cur := by
    intro n
    induction n using Nat.strong_induction_on with
    | _ n ih =>
      intro t cur hn
      match t with
      | [] => simp [scanSentences, scanRun]
      | c :: rest =>
        rw [scanSentences]
        by_cases hc : isEnding c = true
        · have hlen : (rest.dropWhile (fun d => d == c)).length < n := by
            rw [← hn]
            exact Nat.lt_succ_of_le (List.dropWhile_sublist _).length_le
          rw [ih _ hlen _ [] rfl, scanRun_close c rest cur hc]
          by_cases hs : strip (cur ++ c :: rest.takeWhile (fun d => d == c)) = [] <;>
            simp [hs, hc]
        · have hlen : rest.length < n := by
            rw [← hn]; exact Nat.lt_succ_of_le (Nat.le_refl _)
          rw [if_neg hc, ih _ hlen _ (cur ++ [c]) rfl, scanRun_cons]
          have hcond : ¬(isEnding c = true ∧ rest.head? ≠ some c) := by
            intro h; exact hc h.1
          rw [if_neg hcond]
  exact key t.length t cur rfl

theorem sentences_eval (t : Str) : sentences t = scanRun t [] :=
  scanSentences_eq_scanRun t []

example : sentences (str "aaa.bbb.c.") = [str "aaa.", str "bbb.", str "c."] := by
  rw [sentences_eval]; decide

example : sentences (str "ab\ncd") = [str "ab", str "cd"] := by
  rw [sentences_eval]; decide

example : sentences (str "a!!!?b") = [str "a!!!", str "?", str "b"] := by
  rw [sentences_eval]; decide

example : sentences (str " \n ") = [] := by
  rw [sentences_eval]; decide

/-- The character-slice fallback of `TextSplitter.split_text` (line 56):
`[text[i:i+chunk_size] for i in range(0, len(text), chunk_size)]`.
Python `range` with step 0 raises; the claims all assume a positive chunk
size, and the `size = 0` branch here is arbitrary. -/
def slices (size : Nat) (t : Str) : List Str :=
  if size = 0 then []
  else (List.range' 0 ((t.length + size - 1) / size) size).map
    (fun i => (t.drop i).take size)

/-- The overlap update of `TextSplitter.split_text` (lines 73-76): when
`len(current_chunk) >= chunk_overlap` the new overlap text is the Python
slice `current_chunk[-chunk_overlap:]`, otherwise the whole chunk.  Note
the Python quirk: `s[-0:]` is the *entire* string, so with
`chunk_overlap = 0` the overlap text is the whole current chunk. -/
def ovUpdate (overlap : Nat) (cur : Str) : Str :=
  if overlap ≤ cur.length then
    (if overlap = 0 then cur else cur.drop (cur.length - overlap))
  else cur

/-- State of the greedy packing loop of `TextSplitter.split_text`
(lines 59-76): emitted chunks, current chunk, current overlap text. -/
structure PackSt where
  chunks : List Str
  cur : Str
  ov : Str

/-- One iteration of the packing loop (lines 63-76): if appending the
sentence would exceed `chunk_size` and the current chunk is non-empty,
emit `current_chunk.strip()` (unconditionally, line 66) and seed the new
chunk with `overlap_text + sentence`; otherwise append the sentence.
Then recompute the overlap text from the updated current chunk. -/
def packStep (size overlap : Nat) (st : PackSt) (s : Str) : PackSt :=
  let p :=
    if size < st.cur.length + s.length ∧ st.cur ≠ []
    then (st.chunks ++ [strip st.cur], st.ov ++ s)
    else (st.chunks, st.cur ++ s)
  { chunks := p.1, cur := p.2, ov := ovUpdate overlap p.2 }

/-- The full packing pass (lines 59-80): fold the loop over the sentence
list, then flush the final chunk if it strips non-empty (line 79). -/
def pack (size overlap : Nat) (ss : List Str) : List Str :=
  let st := ss.foldl (packStep size overlap) ⟨[], [], []⟩
  if strip st.cur = [] then st.chunks else st.chunks ++ [strip st.cur]

/-- One iteration of the re-merge pass (lines 87-93): concatenate while
the running chunk stays within `chunk_size`; otherwise flush the running
chunk (if non-empty) and restart from the current one. -/
def mergeStep (size : Nat) (st : List Str × Str) (c : Str) : List Str × Str :=
  if st.2.length + c.length ≤ size then (st.1, st.2 ++ c)
  else if st.2 = [] then (st.1, c) else (st.1 ++ [st.2], c)

/-- The re-merge pass of `TextSplitter.split_text` (lines 83-98),
applied only when there is more than one chunk. -/
def mergePass (size : Nat) (chunks : List Str) : List Str :=
  let p := chunks.foldl (mergeStep size) ([], [])
  if p.2 = [] then p.1 else p.1 ++ [p.2]

/-- Lines 54-56 of `TextSplitter.split_text`: the sentence list actually
packed — the segmentation result, or the fixed-size slices when the
segmentation produced no sentences. -/
def effSentences (size : Nat) (text : Str) : List Str :=
  if sentences text = [] then slices size text else sentences text

/-- `TextSplitter.split_text(text)` (src/text_splitter.py lines 10-100)
with configuration `chunk_size = size`, `chunk_overlap = overlap`. -/
def splitText (size overlap : Nat) (text : Str) : List Str :=
  if text = [] then []
  else
    let chunks := pack size overlap (effSentences size text)
    if 1 < chunks.length then mergePass size chunks else chunks

theorem splitText_eval (size overlap : Nat) (text : Str) :
    splitText size overlap text =
      if text = [] then []
      else
        let chunks := pack size overlap
          (if scanRun text [] = [] then slices size text else scanRun text [])
        if 1 < chunks.length then mergePass size chunks else chunks := by
  rw [splitText, effSentences, sentences_eval]

example : splitText 5 0 (str "aaa.bbb.") = [str "aaa.", str "aaa.bbb."] := by
  rw [splitText_eval]; decide

example : splitText 5 4 (str "aaa.bbb.c.") = [str "aaa.", str "aaa.bbb.", str "bbb.c."] := by
  rw [splitText_eval]; decide

example : splitText 5 0 (str " a") = [str "a"] := by
  rw [splitText_eval]; decide

example : splitText 5 0 (str " ") = [] := by
  rw [splitText_eval]; decide

example : splitText 1 0 (str "  ") = [[]] := by
  rw [splitText_eval]; decide

example : splitText 20 10 (str "aaaaaaa        y.zzz.wwwwww.") =
    [str "aaaaaaa        y.", str "y.zzz.y.zzz.wwwwww."] := by
  rw [splitText_eval]; decide


theorem rstrip_eq_rdropWhile (s : Str) : rstrip s = List.rdropWhile pyIsSpace s := rfl

theorem strip_nil : strip [] = [] := rfl

theorem strip_eq_nil_iff (s : Str) : strip s = [] ↔ ∀ c ∈ s, pyIsSpace c = true := by
  constructor
  · intro h
    rw [← List.rdropWhile_eq_nil_iff (p := pyIsSpace)]
    by_contra hne
    have hlast := List.rdropWhile_last_not pyIsSpace s hne
    have hmem : (List.rdropWhile pyIsSpace s).getLast hne ∈ List.rdropWhile pyIsSpace s :=
      List.getLast_mem hne
    have hall : ∀ c ∈ List.rdropWhile pyIsSpace s, pyIsSpace c = true := by
      rw [← List.dropWhile_eq_nil_iff (p := pyIsSpace)]
      exact h
    exact hlast (hall _ hmem)
  · intro h
    have hnil : List.rdropWhile pyIsSpace s = [] := List.rdropWhile_eq_nil_iff.mpr h
    show lstrip (rstrip s) = []
    rw [rstrip_eq_rdropWhile, hnil]
    rfl

theorem rstrip_length_le (s : Str) : (rstrip s).length ≤ s.length := by
  rw [rstrip_eq_rdropWhile]
  have h := List.rdropWhile_prefix pyIsSpace s
  exact h.sublist.length_le

theorem lstrip_length_le (s : Str) : (lstrip s).length ≤ s.length :=
  (List.dropWhile_sublist _).length_le

/-- A `dropWhile` fixed point is characterised by its head. -/
theorem dropWhile_fixed_iff {α : Type} (p : α → Bool) (v : List α) :
    v.dropWhile p = v ↔ ∀ c, v.head? = some c → p c = false := by
  cases v with
  | nil => simp
  | cons a t =>
    rw [List.dropWhile_cons]
    constructor
    · intro h c hc
      have hc' : a = c := by simpa using hc
      rw [← hc']
      cases hp : p a with
      | false => rfl
      | true =>
        rw [if_pos hp] at h
        have hlen := (List.dropWhile_sublist (l := t) p).length_le
        rw [h] at hlen
        simp at hlen
    · intro h
      have ha := h a rfl
      rw [if_neg (by simp [ha])]

/-- An `rstrip` fixed point is characterised by its last element. -/
theorem rstrip_fixed_iff (v : Str) :
    rstrip v = v ↔ ∀ c, v.getLast? = some c → pyIsSpace c = false := by
  have h1 : rstrip v = v ↔ v.reverse.dropWhile pyIsSpace = v.reverse := by
    constructor
    · intro h
      have := congrArg List.reverse h
      rwa [rstrip, List.reverse_reverse] at this
    · intro h
      rw [rstrip, h, List.reverse_reverse]
  rw [h1, dropWhile_fixed_iff]
  constructor
  · intro h c hc
    exact h c (by rw [List.head?_reverse]; exact hc)
  · intro h c hc
    exact h c (by rw [← List.head?_reverse]; exact hc)

/-- An `lstrip` fixed point is characterised by its head. -/
theorem lstrip_fixed_iff (v : Str) :
    lstrip v = v ↔ ∀ c, v.head? = some c → pyIsSpace c = false :=
  dropWhile_fixed_iff pyIsSpace v

theorem strip_fixed (s : Str) (h : strip s = s) : lstrip s = s ∧ rstrip s = s := by
  have hr : rstrip s = s := by
    have hpre := List.rdropWhile_prefix pyIsSpace s
    rw [← rstrip_eq_rdropWhile] at hpre
    refine hpre.eq_of_length ?_
    have h1 : s.length ≤ (strip s).length := by rw [h]
    have h2 : (strip s).length ≤ (rstrip s).length := lstrip_length_le _
    exact Nat.le_antisymm (rstrip_length_le s) (Nat.le_trans h1 h2)
  refine ⟨?_, hr⟩
  have : lstrip (rstrip s) = s := h
  rwa [hr] at this

theorem rstrip_rstrip (s : Str) : rstrip (rstrip s) = rstrip s := by
  rw [rstrip_eq_rdropWhile, rstrip_eq_rdropWhile]
  exact List.rdropWhile_idempotent _ _

theorem lstrip_lstrip (s : Str) : lstrip (lstrip s) = lstrip s :=
  List.dropWhile_idempotent _ _

/-- `lstrip` preserves being an `rstrip` fixed point. -/
theorem rstrip_lstrip (u : Str) (h : rstrip u = u) : rstrip (lstrip u) = lstrip u := by
  rw [rstrip_fixed_iff]
  intro c hc
  have hne : lstrip u ≠ [] := by
    intro hnil
    rw [hnil] at hc
    simp at hc
  have hsuf : lstrip u <:+ u := List.dropWhile_suffix pyIsSpace
  have hgl : (lstrip u).getLast hne = u.getLast (hsuf.ne_nil hne) := hsuf.getLast hne
  have hc' : u.getLast? = some c := by
    rw [List.getLast?_eq_getLast u (hsuf.ne_nil hne), ← hgl]
    rw [List.getLast?_eq_getLast _ hne, Option.some.injEq] at hc
    rw [hc]
  exact (rstrip_fixed_iff u).mp h c hc'

theorem strip_idem (s : Str) : strip (strip s) = strip s := by
  show lstrip (rstrip (lstrip (rstrip s))) = lstrip (rstrip s)
  rw [rstrip_lstrip (rstrip s) (rstrip_rstrip s), lstrip_lstrip]

/-- A string is in "sentence normal form": stripped and non-empty.  Every
sentence emitted by the segmentation step satisfies this. -/
def Stripped (s : Str) : Prop := strip s = s ∧ s ≠ []

theorem Stripped.strip_of (u : Str) (h : strip u ≠ []) : Stripped (strip u) :=
  ⟨strip_idem u, h⟩

theorem Stripped.head_not_space {s : Str} (h : Stripped s) :
    ∀ c, s.head? = some c → pyIsSpace c = false :=
  (lstrip_fixed_iff s).mp (strip_fixed s h.1).1

theorem Stripped.last_not_space {s : Str} (h : Stripped s) :
    ∀ c, s.getLast? = some c → pyIsSpace c = false :=
  (rstrip_fixed_iff s).mp (strip_fixed s h.1).2

/-- Appending a stripped non-empty string: the right strip is unchanged
and the left strip only eats into `x`. -/
theorem strip_append_stripped (x : Str) {b : Str} (hb : Stripped b) :
    strip (x ++ b) = lstrip x ++ b := by
  have hbne : b ≠ [] := hb.2
  have hr : rstrip (x ++ b) = x ++ b := by
    rw [rstrip_fixed_iff]
    intro c hc
    apply hb.last_not_space c
    rw [List.getLast?_append] at hc
    obtain ⟨d, hd⟩ : ∃ d, b.getLast? = some d := by
      cases hgl : b.getLast? with
      | none => exact absurd (List.getLast?_eq_none_iff.mp hgl) hbne
      | some d => exact ⟨d, rfl⟩
    rw [hd] at hc
    simp only [Option.or_some] at hc
    rw [hd, hc]
  show lstrip (rstrip (x ++ b)) = lstrip x ++ b
  rw [hr]
  show List.dropWhile pyIsSpace (x ++ b) = List.dropWhile pyIsSpace x ++ b
  rw [List.dropWhile_append]
  by_cases hx : List.dropWhile pyIsSpace x = []
  · rw [hx]
    simp only [List.isEmpty_nil, if_true, List.nil_append]
    have hfix : List.dropWhile pyIsSpace b = b := by
      rw [show List.dropWhile pyIsSpace b = lstrip b from rfl, lstrip_fixed_iff]
      exact hb.head_not_space
    rw [hfix]
  · simp only [List.isEmpty_eq_true]
    rw [if_neg hx]

theorem Stripped.append {a b : Str} (ha : Stripped a) (hb : Stripped b) :
    Stripped (a ++ b) := by
  refine ⟨?_, by simp [ha.2]⟩
  rw [strip_append_stripped a hb]
  rw [(strip_fixed a ha.1).1]

theorem strip_append_space (x : Str) (c : Char) (hc : pyIsSpace c = true) :
    strip (x ++ [c]) = strip x := by
  show lstrip (rstrip (x ++ [c])) = lstrip (rstrip x)
  rw [rstrip_eq_rdropWhile, rstrip_eq_rdropWhile, List.rdropWhile_concat, if_pos hc]

/-- Every sentence kept by the scanner is stripped and non-empty. -/
theorem scanRun_stripped (t : Str) :
    ∀ cur, ∀ s ∈ scanRun t cur, Stripped s := by
  induction t with
  | nil =>
    intro cur s hs
    simp only [scanRun] at hs
    by_cases h : strip cur = []
    · rw [if_pos h] at hs; simp at hs
    · rw [if_neg h] at hs
      simp only [List.mem_singleton] at hs
      rw [hs]
      exact Stripped.strip_of cur h
  | cons c rest ih =>
    intro cur s hs
    rw [scanRun_cons] at hs
    by_cases hcond : isEnding c = true ∧ rest.head? ≠ some c
    · rw [if_pos hcond] at hs
      rw [List.mem_append] at hs
      cases hs with
      | inl hs =>
        by_cases h : strip (cur ++ [c]) = []
        · rw [if_pos h] at hs; simp at hs
        · rw [if_neg h] at hs
          simp only [List.mem_singleton] at hs
          rw [hs]
          exact Stripped.strip_of _ h
      | inr hs => exact ih [] s hs
    · rw [if_neg hcond] at hs
      exact ih (cur ++ [c]) s hs

theorem sentences_stripped (t : Str) : ∀ s ∈ sentences t, Stripped s := by
  rw [sentences_eval]
  exact scanRun_stripped t []

theorem sentences_nil : sentences [] = [] := by
  rw [sentences_eval]; rfl

/-- Scanning a terminator-free prefix only accumulates it into the
buffer. -/
theorem scanRun_accum (a : Str) (ha : ∀ c ∈ a, isEnding c = false) :
    ∀ (r cur : Str), scanRun (a ++ r) cur = scanRun r (cur ++ a) := by
  induction a with
  | nil => intro r cur; simp
  | cons c as ih =>
    intro r cur
    have hc : isEnding c = false := ha c (by simp)
    have has : ∀ d ∈ as, isEnding d = false := fun d hd => ha d (by simp [hd])
    rw [List.cons_append, scanRun_cons, if_neg (by simp [hc]), ih has r (cur ++ [c])]
    rw [List.append_assoc]
    rfl

/-- Scanning whitespace-only text never emits a sentence beyond the
current buffer. -/
theorem scanRun_allSpace (t : Str) (ht : ∀ c ∈ t, pyIsSpace c = true) :
    ∀ cur, scanRun t cur = if strip cur = [] then [] else [strip cur] := by
  induction t with
  | nil => intro cur; rfl
  | cons c rest ih =>
    intro cur
    have hc : pyIsSpace c = true := ht c (by simp)
    have hrest : ∀ d ∈ rest, pyIsSpace d = true := fun d hd => ht d (by simp [hd])
    have hstrip : strip (cur ++ [c]) = strip cur := strip_append_space cur c hc
    rw [scanRun_cons]
    by_cases hcond : isEnding c = true ∧ rest.head? ≠ some c
    · rw [if_pos hcond, ih hrest [], hstrip]
      by_cases h : strip cur = [] <;> simp [h, strip_nil]
    · rw [if_neg hcond, ih hrest (cur ++ [c]), hstrip]

theorem strip_length_le (s : Str) : (strip s).length ≤ s.length :=
  Nat.le_trans (lstrip_length_le (rstrip s)) (rstrip_length_le s)

theorem flatten_stripped {g : List Str} (hg : ∀ x ∈ g, Stripped x) (hne : g ≠ []) :
    Stripped g.flatten := by
  induction g with
  | nil => exact absurd rfl hne
  | cons s gs ih =>
    rw [List.flatten_cons]
    by_cases hgs : gs = []
    · subst hgs
      simpa using hg s (by simp)
    · exact (hg s (by simp)).append (ih (fun x hx => hg x (by simp [hx])) hgs)

theorem ovUpdate_bound (overlap : Nat) (hov : 0 < overlap) (cur : Str) :
    (ovUpdate overlap cur).length ≤ overlap := by
  rw [ovUpdate]
  by_cases h1 : overlap ≤ cur.length
  · rw [if_pos h1, if_neg (by omega)]
    rw [List.length_drop]
    omega
  · rw [if_neg h1]
    omega

theorem packStep_pos (size overlap : Nat) (st : PackSt) (s : Str)
    (h : size < st.cur.length + s.length ∧ st.cur ≠ []) :
    packStep size overlap st s =
      { chunks := st.chunks ++ [strip st.cur], cur := st.ov ++ s,
        ov := ovUpdate overlap (st.ov ++ s) } := by
  rw [packStep]
  simp only [if_pos h]

theorem packStep_neg (size overlap : Nat) (st : PackSt) (s : Str)
    (h : ¬(size < st.cur.length + s.length ∧ st.cur ≠ [])) :
    packStep size overlap st s =
      { chunks := st.chunks, cur := st.cur ++ s,
        ov := ovUpdate overlap (st.cur ++ s) } := by
  rw [packStep]
  simp only [if_neg h]

/-- A chunk produced by the packing pass: an overlap seed followed by a
group of consecutive sentences. -/
def seedChunk (p : Str) (g : List Str) : Str := p ++ g.flatten

/-- Invariant of the packing loop relating the state to the sentences
consumed so far: the emitted chunks are seeded sentence groups, and the
current chunk is a seed plus the pending group. -/
def PackInv (overlap : Nat) (st : PackSt) (sofar : List Str) : Prop :=
  ∃ ps gs pcur gcur,
    ps.length = gs.length ∧
    (∀ g ∈ gs, g ≠ []) ∧
    st.chunks = List.zipWith seedChunk ps gs ∧
    st.cur = pcur ++ gcur.flatten ∧
    gs.flatten ++ gcur = sofar ∧
    (gcur = [] → pcur = []) ∧
    (gs = [] → pcur = []) ∧
    (ps ≠ [] → ps.head? = some []) ∧
    (0 < overlap → st.ov.length ≤ overlap) ∧
    (0 < overlap → pcur.length ≤ overlap) ∧
    (0 < overlap → ∀ p ∈ ps, p.length ≤ overlap) ∧
    (∀ x ∈ gcur, Stripped x)

theorem packInv_init (overlap : Nat) :
    PackInv overlap (⟨[], [], []⟩ : PackSt) [] := by
  refine ⟨[], [], [], [], rfl, ?_, rfl, rfl, rfl, ?_, ?_, ?_, ?_, ?_, ?_, ?_⟩
  · intro g hg; simp at hg
  · intro _; rfl
  · intro _; rfl
  · intro h; exact absurd rfl h
  · intro _; simp
  · intro _; simp
  · intro _ p hp; simp at hp
  · intro x hx; simp at hx

theorem packStep_inv (size overlap : Nat) (st : PackSt) (sofar : List Str) (s : Str)
    (hs : Stripped s) (hinv : PackInv overlap st sofar) :
    PackInv overlap (packStep size overlap st s) (sofar ++ [s]) := by
  obtain ⟨ps, gs, pcur, gcur, hlen, hgne, hchunks, hcur, hcov, hg6, hg7, hhead,
    hov9, hpc10, hps11, hgstr⟩ := hinv
  by_cases hcond : size < st.cur.length + s.length ∧ st.cur ≠ []
  · rw [packStep_pos size overlap st s hcond]
    have hgcur_ne : gcur ≠ [] := by
      intro hnil
      apply hcond.2
      rw [hcur, hg6 hnil, hnil]
      rfl
    have hflat : Stripped gcur.flatten := flatten_stripped hgstr hgcur_ne
    have hstrip_cur : strip st.cur = lstrip pcur ++ gcur.flatten := by
      rw [hcur]
      exact strip_append_stripped pcur hflat
    refine ⟨ps ++ [lstrip pcur], gs ++ [gcur], st.ov, [s], ?_, ?_, ?_, ?_, ?_, ?_, ?_, ?_,
      ?_, ?_, ?_, ?_⟩
    · simp [hlen]
    · intro g hg
      rw [List.mem_append] at hg
      cases hg with
      | inl hg => exact hgne g hg
      | inr hg => simpa using (by simpa using hg : g = gcur) ▸ hgcur_ne
    · show st.chunks ++ [strip st.cur] = _
      rw [hchunks, hstrip_cur,
        List.zipWith_append seedChunk ps [lstrip pcur] gs [gcur] hlen]
      rfl
    · show st.ov ++ s = st.ov ++ List.flatten [s]
      simp
    · rw [List.flatten_append]
      simp only [List.flatten_cons, List.flatten_nil, List.append_nil]
      rw [hcov]
    · intro h; simp at h
    · intro h; simp at h
    · intro _
      by_cases hps : ps = []
      · subst hps
        have : pcur = [] := hg7 (by simpa using hlen.symm)
        rw [this]
        rfl
      · rw [List.head?_append_of_ne_nil _ hps]
        exact hhead hps
    · intro hov
      exact ovUpdate_bound overlap hov _
    · intro hov
      exact hov9 hov
    · intro hov p hp
      rw [List.mem_append] at hp
      cases hp with
      | inl hp => exact hps11 hov p hp
      | inr hp =>
        have : p = lstrip pcur := by simpa using hp
        rw [this]
        exact Nat.le_trans (lstrip_length_le pcur) (hpc10 hov)
    · intro x hx
      have : x = s := by simpa using hx
      rw [this]
      exact hs
  · rw [packStep_neg size overlap st s hcond]
    refine ⟨ps, gs, pcur, gcur ++ [s], hlen, hgne, hchunks, ?_, ?_, ?_, ?_, hhead,
      ?_, ?_, hps11, ?_⟩
    · show st.cur ++ s = pcur ++ (gcur ++ [s]).flatten
      rw [hcur, List.flatten_append]
      simp [List.append_assoc]
    · rw [show gs.flatten ++ (gcur ++ [s]) = gs.flatten ++ gcur ++ [s] from
        (List.append_assoc _ _ _).symm, hcov]
    · intro h; simp at h
    · intro hgs
      exact hg7 hgs
    · intro hov
      exact ovUpdate_bound overlap hov _
    · intro hov
      exact hpc10 hov
    · intro x hx
      rw [List.mem_append] at hx
      cases hx with
      | inl hx => exact hgstr x hx
      | inr hx =>
        have : x = s := by simpa using hx
        rw [this]
        exact hs

theorem packFold_inv (size overlap : Nat) :
    ∀ (ss : List Str) (st : PackSt) (sofar : List Str),
      (∀ x ∈ ss, Stripped x) → PackInv overlap st sofar →
      PackInv overlap (ss.foldl (packStep size overlap) st) (sofar ++ ss) := by
  intro ss
  induction ss with
  | nil =>
    intro st sofar _ hinv
    simpa using hinv
  | cons s rest ih =>
    intro st sofar hss hinv
    rw [List.foldl_cons]
    have hstep := packStep_inv size overlap st sofar s (hss s (by simp)) hinv
    have := ih (packStep size overlap st s) (sofar ++ [s])
      (fun x hx => hss x (by simp [hx])) hstep
    simpa [List.append_assoc] using this

/-- Decomposition of the packing pass: the emitted chunks are exactly a
partition of the input sentence list into non-empty consecutive groups,
each chunk being its group's concatenation preceded by an overlap seed
(empty for the first chunk, and of length at most `chunk_overlap`
whenever `chunk_overlap > 0`). -/
theorem pack_decomp (size overlap : Nat) (ss : List Str)
    (hss : ∀ x ∈ ss, Stripped x) :
    ∃ ps gs, ps.length = gs.length ∧ (∀ g ∈ gs, g ≠ []) ∧
      gs.flatten = ss ∧ (ps ≠ [] → ps.head? = some []) ∧
      (0 < overlap → ∀ p ∈ ps, p.length ≤ overlap) ∧
      pack size overlap ss = List.zipWith seedChunk ps gs := by
  have hinv := packFold_inv size overlap ss ⟨[], [], []⟩ [] hss
    (packInv_init overlap)
  rw [List.nil_append] at hinv
  obtain ⟨ps, gs, pcur, gcur, hlen, hgne, hchunks, hcur, hcov, hg6, hg7, hhead,
    _, hpc10, hps11, hgstr⟩ := hinv
  set st := ss.foldl (packStep size overlap) ⟨[], [], []⟩ with hst
  rw [pack, ← hst]
  by_cases hsc : strip st.cur = []
  · rw [if_pos hsc]
    have hgcur : gcur = [] := by
      by_contra hne
      have hflat : Stripped gcur.flatten := flatten_stripped hgstr hne
      rw [hcur, strip_append_stripped pcur hflat] at hsc
      exact hflat.2 (List.append_eq_nil.mp hsc).2
    refine ⟨ps, gs, hlen, hgne, ?_, hhead, hps11, hchunks⟩
    rw [hgcur] at hcov
    simpa using hcov
  · rw [if_neg hsc]
    have hgcur_ne : gcur ≠ [] := by
      intro hnil
      apply hsc
      rw [hcur, hg6 hnil, hnil]
      rfl
    have hflat : Stripped gcur.flatten := flatten_stripped hgstr hgcur_ne
    have hstrip_cur : strip st.cur = lstrip pcur ++ gcur.flatten := by
      rw [hcur]
      exact strip_append_stripped pcur hflat
    refine ⟨ps ++ [lstrip pcur], gs ++ [gcur], by simp [hlen], ?_, ?_, ?_, ?_, ?_⟩
    · intro g hg
      rw [List.mem_append] at hg
      cases hg with
      | inl hg => exact hgne g hg
      | inr hg => simpa using (by simpa using hg : g = gcur) ▸ hgcur_ne
    · rw [List.flatten_append]
      simp only [List.flatten_cons, List.flatten_nil, List.append_nil]
      exact hcov
    · intro _
      by_cases hps : ps = []
      · subst hps
        have : pcur = [] := hg7 (by simpa using hlen.symm)
        rw [this]
        rfl
      · rw [List.head?_append_of_ne_nil _ hps]
        exact hhead hps
    · intro hov p hp
      rw [List.mem_append] at hp
      cases hp with
      | inl hp => exact hps11 hov p hp
      | inr hp =>
        have : p = lstrip pcur := by simpa using hp
        rw [this]
        exact Nat.le_trans (lstrip_length_le pcur) (hpc10 hov)
    · rw [hchunks, hstrip_cur,
        List.zipWith_append seedChunk ps [lstrip pcur] gs [gcur] hlen]
      rfl

theorem mergeStep_eq (size : Nat) (acc : List Str) (temp : Str) (c : Str) :
    mergeStep size (acc, temp) c =
      if temp.length + c.length ≤ size then (acc, temp ++ c)
      else if temp = [] then (acc, c) else (acc ++ [temp], c) := rfl

theorem mergeFold_flatten (size : Nat) (cs : List Str) :
    ∀ (acc : List Str) (temp : Str),
      (if (cs.foldl (mergeStep size) (acc, temp)).2 = []
       then (cs.foldl (mergeStep size) (acc, temp)).1
       else (cs.foldl (mergeStep size) (acc, temp)).1 ++
         [(cs.foldl (mergeStep size) (acc, temp)).2]).flatten
      = acc.flatten ++ (temp ++ cs.flatten) := by
  induction cs with
  | nil =>
    intro acc temp
    by_cases h : temp = [] <;> simp [h]
  | cons c rest ih =>
    intro acc temp
    rw [List.foldl_cons, mergeStep_eq]
    by_cases h1 : temp.length + c.length ≤ size
    · rw [if_pos h1, ih acc (temp ++ c)]
      simp
    · rw [if_neg h1]
      by_cases h2 : temp = []
      · rw [if_pos h2, ih acc c, h2]
        simp
      · rw [if_neg h2, ih (acc ++ [temp]) c]
        simp

theorem mergePass_flatten (size : Nat) (cs : List Str) :
    (mergePass size cs).flatten = cs.flatten := by
  have h := mergeFold_flatten size cs [] []
  simpa [mergePass] using h

theorem mergeFold_bound (size B : Nat) (hB : size ≤ B) (cs : List Str) :
    ∀ (acc : List Str) (temp : Str),
      (∀ x ∈ acc, x.length ≤ B) → temp.length ≤ B → (∀ x ∈ cs, x.length ≤ B) →
      ∀ x ∈ (if (cs.foldl (mergeStep size) (acc, temp)).2 = []
             then (cs.foldl (mergeStep size) (acc, temp)).1
             else (cs.foldl (mergeStep size) (acc, temp)).1 ++
               [(cs.foldl (mergeStep size) (acc, temp)).2]),
        x.length ≤ B := by
  induction cs with
  | nil =>
    intro acc temp hacc htemp _
    rw [List.foldl_nil]
    by_cases h : temp = []
    · rw [if_pos (show (acc, temp).2 = [] from h)]
      exact hacc
    · rw [if_neg (show ¬(acc, temp).2 = [] from h)]
      intro x hx
      rw [List.mem_append] at hx
      cases hx with
      | inl hx => exact hacc x hx
      | inr hx =>
        have : x = temp := by simpa using hx
        rw [this]; exact htemp
  | cons c rest ih =>
    intro acc temp hacc htemp hcs
    have hc : c.length ≤ B := hcs c (by simp)
    have hrest : ∀ x ∈ rest, x.length ≤ B := fun x hx => hcs x (by simp [hx])
    rw [List.foldl_cons, mergeStep_eq]
    by_cases h1 : temp.length + c.length ≤ size
    · rw [if_pos h1]
      exact ih acc (temp ++ c) hacc (by simpa using Nat.le_trans h1 hB) hrest
    · rw [if_neg h1]
      by_cases h2 : temp = []
      · rw [if_pos h2]
        exact ih acc c hacc hc hrest
      · rw [if_neg h2]
        refine ih (acc ++ [temp]) c ?_ hc hrest
        intro x hx
        rw [List.mem_append] at hx
        cases hx with
        | inl hx => exact hacc x hx
        | inr hx =>
          have : x = temp := by simpa using hx
          rw [this]; exact htemp
  
theorem mergePass_bound (size B : Nat) (hB : size ≤ B) (cs : List Str)
    (hcs : ∀ x ∈ cs, x.length ≤ B) :
    ∀ x ∈ mergePass size cs, x.length ≤ B := by
  have h := mergeFold_bound size B hB cs [] [] (by simp) (by simp) hcs
  simpa [mergePass] using h

theorem packFold_bound (size overlap : Nat) (hov : 0 < overlap) (L B : Nat)
    (hB1 : size ≤ B) (hB2 : overlap + L ≤ B) :
    ∀ (ss : List Str) (st : PackSt),
      (∀ x ∈ ss, x.length ≤ L) →
      (∀ x ∈ st.chunks, x.length ≤ B) → st.cur.length ≤ B →
      st.ov.length ≤ overlap →
      (∀ x ∈ (ss.foldl (packStep size overlap) st).chunks, x.length ≤ B) ∧
        (ss.foldl (packStep size overlap) st).cur.length ≤ B := by
  intro ss
  induction ss with
  | nil =>
    intro st _ hchunks hcur _
    exact ⟨hchunks, hcur⟩
  | cons s rest ih =>
    intro st hss hchunks hcur hovb
    have hsL : s.length ≤ L := hss s (by simp)
    have hrest : ∀ x ∈ rest, x.length ≤ L := fun x hx => hss x (by simp [hx])
    rw [List.foldl_cons]
    by_cases hcond : size < st.cur.length + s.length ∧ st.cur ≠ []
    · rw [packStep_pos size overlap st s hcond]
      refine ih _ hrest ?_ ?_ ?_
      · intro x hx
        rw [List.mem_append] at hx
        cases hx with
        | inl hx => exact hchunks x hx
        | inr hx =>
          have : x = strip st.cur := by simpa using hx
          rw [this]
          exact Nat.le_trans (strip_length_le _) hcur
      · show (st.ov ++ s).length ≤ B
        rw [List.length_append]
        omega
      · exact ovUpdate_bound overlap hov _
    · rw [packStep_neg size overlap st s hcond]
      refine ih _ hrest hchunks ?_ ?_
      · show (st.cur ++ s).length ≤ B
        rw [List.length_append]
        by_cases hnil : st.cur = []
        · rw [hnil]
          simp
          omega
        · have : ¬ size < st.cur.length + s.length := fun hlt => hcond ⟨hlt, hnil⟩
          omega
      · exact ovUpdate_bound overlap hov _

theorem pack_bound (size overlap : Nat) (hov : 0 < overlap) (ss : List Str)
    (L B : Nat) (hB1 : size ≤ B) (hB2 : overlap + L ≤ B)
    (hL : ∀ x ∈ ss, x.length ≤ L) :
    ∀ c ∈ pack size overlap ss, c.length ≤ B := by
  have h := packFold_bound size overlap hov L B hB1 hB2 ss ⟨[], [], []⟩ hL
    (by simp) (by simp) (by simp)
  rw [pack]
  set st := ss.foldl (packStep size overlap) ⟨[], [], []⟩ with hst
  by_cases hsc : strip st.cur = []
  · rw [if_pos hsc]
    exact h.1
  · rw [if_neg hsc]
    intro c hc
    rw [List.mem_append] at hc
    cases hc with
    | inl hc => exact h.1 c hc
    | inr hc =>
      have : c = strip st.cur := by simpa using hc
      rw [this]
      exact Nat.le_trans (strip_length_le _) h.2

/-- Maximum length of the elements of a list of strings. -/
def maxLen (ss : List Str) : Nat := ss.foldr (fun s m => max s.length m) 0

theorem le_maxLen (ss : List Str) : ∀ s ∈ ss, s.length ≤ maxLen ss := by
  induction ss with
  | nil => intro s hs; simp at hs
  | cons a rest ih =>
    intro s hs
    rw [List.mem_cons] at hs
    cases hs with
    | inl hs => rw [hs]; exact Nat.le_max_left _ _
    | inr hs => exact Nat.le_trans (ih s hs) (Nat.le_max_right _ _)

theorem splitText_ne (size overlap : Nat) (text : Str) (h : text ≠ []) :
    splitText size overlap text =
      if 1 < (pack size overlap (effSentences size text)).length
      then mergePass size (pack size overlap (effSentences size text))
      else pack size overlap (effSentences size text) := by
  rw [splitText, if_neg h]

/-- C1 counterexample input: with `chunk_overlap = 0` the Python slice
`current_chunk[-0:]` is the whole chunk, so the second chunk repeats the
whole first chunk even though the designed overlap is empty. -/
theorem claim1_counterexample :
    splitText 5 0 (str "aaa.bbb.") = [str "aaa.", str "aaa.bbb."] ∧
      sentences (str "aaa.bbb.") = [str "aaa.", str "bbb."] ∧
      ¬ (str "aaa." ++ str "bbb." = str "aaa." ++ str "aaa.bbb.") := by
  refine ⟨?_, ?_, by decide⟩
  · rw [splitText_eval]; decide
  · rw [sentences_eval]; decide

/-- C1 (amended): for every text whose segmentation yields at least one
sentence, the concatenation of the chunks of `split_text` is the sentence
sequence concatenated in order, partitioned into non-empty consecutive
groups, with an overlap seed inserted before every group except the first
(the first seed is empty).  No sentence is dropped and each occurs exactly
once outside the seeds; each seed has length at most `chunk_overlap` when
`chunk_overlap > 0` (with `chunk_overlap = 0` the seed is the whole
previous accumulation, by the Python `[-0:]` slicing quirk).  After the
re-merge pass the seeds need not sit at the start of a chunk. -/
theorem claim1_amended (size overlap : Nat) (text : Str)
    (h : sentences text ≠ []) :
    ∃ ps gs, ps.length = gs.length ∧ (∀ g ∈ gs, g ≠ []) ∧
      gs.flatten = sentences text ∧ ps.head? = some [] ∧
      (0 < overlap → ∀ p ∈ ps, p.length ≤ overlap) ∧
      (splitText size overlap text).flatten =
        (List.zipWith seedChunk ps gs).flatten := by
  have htext : text ≠ [] := by
    intro h0
    rw [h0, sentences_nil] at h
    exact h rfl
  obtain ⟨ps, gs, hlen, hgne, hflat, hhead, hbound, hpack⟩ :=
    pack_decomp size overlap (sentences text) (sentences_stripped text)
  refine ⟨ps, gs, hlen, hgne, hflat, ?_, hbound, ?_⟩
  · apply hhead
    intro hps
    rw [hps] at hlen
    have hgs : gs = [] := by
      cases gs with
      | nil => rfl
      | cons a b => simp at hlen
    rw [hgs] at hflat
    exact h (by rw [← hflat]; rfl)
  · have heff : effSentences size text = sentences text := by
      rw [effSentences, if_neg h]
    rw [splitText_ne size overlap text htext, heff]
    by_cases hone : 1 < (pack size overlap (sentences text)).length
    · rw [if_pos hone, mergePass_flatten, hpack]
    · rw [if_neg hone, hpack]

theorem claim1_witness :
    ∃ ps gs, ps.length = gs.length ∧ (∀ g ∈ gs, g ≠ []) ∧
      gs.flatten = sentences (str "aaa.bbb.") ∧ ps.head? = some [] ∧
      (0 < 2 → ∀ p ∈ ps, p.length ≤ 2) ∧
      (splitText 5 2 (str "aaa.bbb.")).flatten =
        (List.zipWith seedChunk ps gs).flatten :=
  claim1_amended 5 2 (str "aaa.bbb.") (by rw [sentences_eval]; decide)

/-- C2 counterexample input: with `chunk_size = 5`, `chunk_overlap = 4`,
the middle chunk `"aaa.bbb."` (length 8) exceeds the size although it is
not a single oversized sentence — it is the overlap seed `"aaa."` plus
the sentence `"bbb."`, each of length 4 ≤ 5. -/
theorem claim2_counterexample :
    splitText 5 4 (str "aaa.bbb.c.") =
        [str "aaa.", str "aaa.bbb.", str "bbb.c."] ∧
      (str "aaa.bbb.").length = 8 ∧
      sentences (str "aaa.bbb.c.") = [str "aaa.", str "bbb.", str "c."] ∧
      (str "aaa.").length ≤ 5 ∧ (str "bbb.").length ≤ 5 ∧
      (str "c.").length ≤ 5 := by
  refine ⟨?_, by decide, ?_, by decide, by decide, by decide⟩
  · rw [splitText_eval]; decide
  · rw [sentences_eval]; decide

/-- C2 (amended): for `chunk_overlap > 0`, every chunk (not only the
non-last ones) is bounded by `max chunk_size (chunk_overlap + L)` where
`L` is the length of the longest packed sentence: a chunk can exceed
`chunk_size` exactly by consisting of a single sentence — possibly
preceded by an overlap seed of at most `chunk_overlap` characters — whose
combined length exceeds it.  (With `chunk_overlap = 0` the slicing quirk
seeds a new chunk with the whole previous accumulation, and no bound in
terms of `chunk_size` holds at all, as the C1 counterexample shows.) -/
theorem claim2_amended (size overlap : Nat) (text : Str) (hov : 0 < overlap) :
    ∀ c ∈ splitText size overlap text,
      c.length ≤ max size (overlap + maxLen (effSentences size text)) := by
  intro c hc
  by_cases htext : text = []
  · rw [htext] at hc
    rw [show splitText size overlap [] = [] from by rw [splitText]; rfl] at hc
    simp at hc
  · have hB1 : size ≤ max size (overlap + maxLen (effSentences size text)) :=
      Nat.le_max_left _ _
    have hB2 : overlap + maxLen (effSentences size text) ≤
        max size (overlap + maxLen (effSentences size text)) :=
      Nat.le_max_right _ _
    have hpackb := pack_bound size overlap hov (effSentences size text)
      (maxLen (effSentences size text)) _ hB1 hB2 (le_maxLen _)
    rw [splitText_ne size overlap text htext] at hc
    by_cases hone : 1 < (pack size overlap (effSentences size text)).length
    · rw [if_pos hone] at hc
      exact mergePass_bound size _ hB1 _ hpackb c hc
    · rw [if_neg hone] at hc
      exact hpackb c hc

theorem claim2_witness :
    (str "aaa.bbb.").length ≤
      max 5 (4 + maxLen (effSentences 5 (str "aaa.bbb.c."))) :=
  claim2_amended 5 4 (str "aaa.bbb.c.") (by decide) (str "aaa.bbb.")
    (by rw [splitText_eval]; decide)

theorem takeWhile_replicate_append (t : Char) (n : Nat) (b : Str)
    (hb : b.head? ≠ some t) :
    (List.replicate n t ++ b).takeWhile (fun d => d == t) = List.replicate n t := by
  induction n with
  | zero =>
    simp only [List.replicate, List.nil_append]
    cases b with
    | nil => rfl
    | cons x xs =>
      have hx : (x == t) = false := by
        cases h : (x == t) with
        | true => exact absurd (by simp [List.head?_cons, eq_of_beq h]) hb
        | false => rfl
      simp [hx]
  | succ n ih =>
    rw [List.replicate_succ, List.cons_append,
      List.takeWhile_cons_of_pos (by simp), ih]

theorem dropWhile_replicate_append (t : Char) (n : Nat) (b : Str)
    (hb : b.head? ≠ some t) :
    (List.replicate n t ++ b).dropWhile (fun d => d == t) = b := by
  induction n with
  | zero =>
    simp only [List.replicate, List.nil_append]
    cases b with
    | nil => rfl
    | cons x xs =>
      have hx : (x == t) = false := by
        cases h : (x == t) with
        | true => exact absurd (by simp [List.head?_cons, eq_of_beq h]) hb
        | false => rfl
      simp [hx]
  | succ n ih =>
    rw [List.replicate_succ, List.cons_append,
      List.dropWhile_cons_of_pos (by simp), ih]

/-- C7: closing a sentence at a terminator absorbs the whole run of that
same terminator into the unit, and scanning resumes at the first
following character, which is not absorbed even if it is a different
terminator. -/
theorem claim7_absorption (a b : Str) (t : Char) (n : Nat)
    (ht : isEnding t = true) (ha : ∀ c ∈ a, isEnding c = false)
    (hb : b.head? ≠ some t) :
    sentences (a ++ List.replicate (n + 1) t ++ b) =
      (if strip (a ++ List.replicate (n + 1) t) = [] then []
       else [strip (a ++ List.replicate (n + 1) t)]) ++ sentences b := by
  have hsb : sentences b = scanRun b [] := sentences_eval b
  rw [sentences_eval, hsb, List.append_assoc, scanRun_accum a ha _ [],
    List.nil_append, List.replicate_succ, List.cons_append,
    scanRun_close t _ a ht, takeWhile_replicate_append t n b hb,
    dropWhile_replicate_append t n b hb]

theorem claim7_witness :
    sentences (str "a" ++ List.replicate 3 '!' ++ str "?b") =
      (if strip (str "a" ++ List.replicate 3 '!') = [] then []
       else [strip (str "a" ++ List.replicate 3 '!')]) ++ sentences (str "?b") :=
  claim7_absorption (str "a") (str "?b") '!' 2 (by decide) (by decide) (by decide)

/-- C3 counterexample input: `"ab\ncd"` contains a single newline not
adjacent to another newline, yet segmentation closes a sentence there —
a lone `\n` is in the terminator set, because membership in the Python
string `"。！？.!?\n\n"` cannot distinguish a doubled newline. -/
theorem claim3_counterexample :
    sentences (str "ab\ncd") = [str "ab", str "cd"] ∧
      sentences (str "ab\ncd") ≠ [strip (str "ab\ncd")] := by
  constructor
  · rw [sentences_eval]; decide
  · rw [sentences_eval]; decide

/-- C3 (amended): a sentence is closed exactly at the characters of
`{。！？.!?\n}` — in particular a *single* newline, not adjacent to any
other newline, does close the current sentence: with `a` and `b` both
terminator-free, scanning `a ++ "\n" ++ b` yields the trimmed `a`
followed by the trimmed `b` (each kept only if non-empty). -/
theorem claim3_amended (a b : Str) (ha : ∀ c ∈ a, isEnding c = false)
    (hb : ∀ c ∈ b, isEnding c = false) :
    sentences (a ++ '\n' :: b) =
      (if strip a = [] then [] else [strip a]) ++
        (if strip b = [] then [] else [strip b]) := by
  rw [sentences_eval, scanRun_accum a ha ('\n' :: b) [], List.nil_append,
    scanRun_cons]
  have hcond : isEnding '\n' = true ∧ b.head? ≠ some '\n' := by
    refine ⟨rfl, ?_⟩
    intro hhd
    cases b with
    | nil => simp at hhd
    | cons x xs =>
      have hx := hb x (by simp)
      have : x = '\n' := by simpa using hhd
      rw [this] at hx
      exact absurd hx (by decide)
  rw [if_pos hcond, strip_append_space a '\n' (by decide)]
  have h2 : scanRun b [] = if strip b = [] then [] else [strip b] := by
    have hacc := scanRun_accum b hb [] []
    rw [List.append_nil, List.nil_append] at hacc
    rw [hacc]
    rfl
  rw [h2]

theorem claim3_witness :
    sentences (str "ab" ++ '\n' :: str "cd") =
      (if strip (str "ab") = [] then [] else [strip (str "ab")]) ++
        (if strip (str "cd") = [] then [] else [strip (str "cd")]) :=
  claim3_amended (str "ab") (str "cd") (by decide) (by decide)

/-- C8 counterexample input: a whitespace-only text shorter than the
chunk size and with no terminator does hit the fallback path, but every
fallback slice strips to empty, so the result is `[]`, not `[text]`. -/
theorem claim8_counterexample :
    splitText 5 0 (str " ") = [] ∧ ([] : List Str) ≠ [str " "] := by
  refine ⟨?_, by decide⟩
  rw [splitText_eval]; decide

/-- C8 (amended): for text shorter than `chunk_size`, (a) if the text is
non-empty but trims to nothing, the fallback path is taken and the result
is `[]` (not `[text]`); (b) whenever segmentation finds exactly one
sentence `s` — which is the case for every text with non-whitespace
content and no terminator, via the trailing flush rather than the
fallback — the result is `[s]`, the trimmed text. -/
theorem claim8_amended (size overlap : Nat) (text : Str) :
    (text ≠ [] → text.length < size → strip text = [] →
      splitText size overlap text = []) ∧
    (∀ s, sentences text = [s] → splitText size overlap text = [s]) := by
  constructor
  · intro hne hlen hstrip
    have hws : ∀ c ∈ text, pyIsSpace c = true := (strip_eq_nil_iff text).mp hstrip
    have hsent : sentences text = [] := by
      rw [sentences_eval, scanRun_allSpace text hws []]
      rfl
    have hsize : size ≠ 0 := by
      intro h0
      rw [h0] at hlen
      omega
    have hlen1 : 1 ≤ text.length := by
      cases text with
      | nil => exact absurd rfl hne
      | cons _ _ => simp
    have hslice : slices size text = [text] := by
      rw [slices, if_neg hsize]
      have hcount : (text.length + size - 1) / size = 1 := by
        apply Nat.div_eq_of_lt_le
        · omega
        · omega
      rw [hcount]
      have hrange : List.range' 0 1 size = [0] := rfl
      rw [hrange]
      simp only [List.map_cons, List.map_nil, List.drop_zero]
      rw [List.take_of_length_le (by omega)]
    have hpack : pack size overlap (effSentences size text) = [] := by
      rw [effSentences, if_pos hsent, hslice, pack, List.foldl_cons,
        packStep_neg _ _ _ _ (by simp), List.foldl_nil]
      simp only [List.nil_append]
      rw [if_pos hstrip]
    rw [splitText_ne size overlap text hne, hpack]
    rfl
  · intro s hs
    have hsne : Stripped s := by
      have hstr := sentences_stripped text
      rw [hs] at hstr
      exact hstr s (by simp)
    have htext : text ≠ [] := by
      intro h0
      rw [h0, sentences_nil] at hs
      simp at hs
    have hpack : pack size overlap (effSentences size text) = [s] := by
      rw [effSentences, hs, if_neg (by simp), pack, List.foldl_cons,
        packStep_neg _ _ _ _ (by simp), List.foldl_nil]
      simp only [List.nil_append]
      rw [if_neg (by rw [hsne.1]; exact hsne.2)]
      rw [hsne.1]
    rw [splitText_ne size overlap text htext, hpack]
    rfl

theorem claim8_witness :
    splitText 5 0 (str " x ") = [str "x"] ∧ splitText 7 0 (str "  ") = [] :=
  ⟨(claim8_amended 5 0 (str " x ")).2 (str "x") (by rw [sentences_eval]; decide),
   (claim8_amended 7 0 (str "  ")).1 (by decide) (by decide) (by decide)⟩

/-- An input record of `TextSplitter.split_documents`, as produced by
`DocumentLoader.load_document` (src/document_loader.py lines 131-188):
content plus provenance, with a 1-based `page_number` for paginated
sources and `0` for free text; loader records carry no `images` key, so
`doc.get("images", [])` defaults to `[]`, kept here as a field. -/
structure Document where
  content : Str
  filename : Str
  filepath : Str
  filetype : Str
  page_number : Nat
  images : List Str
deriving DecidableEq

/-- A chunk record built by `TextSplitter.split_documents`
(src/text_splitter.py lines 113-137). -/
structure Chunk where
  content : Str
  filename : Str
  filepath : Str
  filetype : Str
  page_number : Nat
  chunk_id : Nat
  images : List Str
deriving DecidableEq

/-- The single pass-through chunk built for a paginated document
(src/text_splitter.py lines 114-122): content verbatim, `page_number`
copied, `chunk_id = 0`. -/
def pagChunk (d : Document) : Chunk :=
  { content := d.content, filename := d.filename, filepath := d.filepath,
    filetype := d.filetype, page_number := d.page_number, chunk_id := 0,
    images := d.images }

/-- The chunks one document contributes in `TextSplitter.split_documents`
(src/text_splitter.py lines 109-137): `.pdf`/`.pptx` records pass through
as one chunk; `.docx`/`.txt` content is split by `split_text`, with
`page_number = 0` and `chunk_id = i` for the `i`-th piece; any other
filetype contributes nothing. -/
def docChunks (size overlap : Nat) (d : Document) : List Chunk :=
  if d.filetype = str ".pdf" ∨ d.filetype = str ".pptx" then
    [pagChunk d]
  else if d.filetype = str ".docx" ∨ d.filetype = str ".txt" then
    (splitText size overlap d.content).enum.map
      (fun ic =>
        { content := ic.2, filename := d.filename, filepath := d.filepath,
          filetype := d.filetype, page_number := 0, chunk_id := ic.1,
          images := [] })
  else []

/-- `TextSplitter.split_documents` (src/text_splitter.py lines 102-140):
the loop appends each document's chunks in order. -/
def splitDocuments (size overlap : Nat) (docs : List Document) : List Chunk :=
  (docs.map (docChunks size overlap)).flatten

/-- C4: chunks from paginated records keep `page_number > 0` (under the
loader's guarantee that paginated inputs carry `page_number ≥ 1`),
`chunk_id = 0` and verbatim content, exactly one chunk per record; chunks
from free-text records have `page_number = 0` and `chunk_id` enumerating
the pieces of `split_text` from 0 upwards. -/
theorem claim4_invariant (size overlap : Nat) (docs : List Document)
    (h : ∀ d ∈ docs, (d.filetype = str ".pdf" ∨ d.filetype = str ".pptx") →
      1 ≤ d.page_number) :
    splitDocuments size overlap docs = (docs.map (docChunks size overlap)).flatten
    ∧ (∀ d ∈ docs, (d.filetype = str ".pdf" ∨ d.filetype = str ".pptx") →
        docChunks size overlap d = [pagChunk d] ∧
          0 < (pagChunk d).page_number ∧ (pagChunk d).chunk_id = 0 ∧
          (pagChunk d).content = d.content)
    ∧ (∀ d ∈ docs, (d.filetype = str ".docx" ∨ d.filetype = str ".txt") →
        (docChunks size overlap d).map Chunk.content =
            splitText size overlap d.content ∧
          (docChunks size overlap d).map Chunk.page_number =
            List.replicate (docChunks size overlap d).length 0 ∧
          (docChunks size overlap d).map Chunk.chunk_id =
            List.range (docChunks size overlap d).length) := by
  refine ⟨rfl, ?_, ?_⟩
  · intro d hd hpag
    exact ⟨by rw [docChunks, if_pos hpag], h d hd hpag, rfl, rfl⟩
  · intro d hd hfree
    have hnotpag : ¬(d.filetype = str ".pdf" ∨ d.filetype = str ".pptx") := by
      intro hpag
      cases hfree with
      | inl h1 =>
        cases hpag with
        | inl h2 => rw [h1] at h2; exact absurd h2 (by decide)
        | inr h2 => rw [h1] at h2; exact absurd h2 (by decide)
      | inr h1 =>
        cases hpag with
        | inl h2 => rw [h1] at h2; exact absurd h2 (by decide)
        | inr h2 => rw [h1] at h2; exact absurd h2 (by decide)
    rw [docChunks, if_neg hnotpag, if_pos hfree]
    set l := splitText size overlap d.content with hl
    refine ⟨?_, ?_, ?_⟩
    · rw [List.map_map]
      exact List.enum_map_snd l
    · rw [List.map_map, List.length_map, List.enum_length]
      have hcomp : (Chunk.page_number ∘ fun ic : Nat × Str =>
          ({ content := ic.2, filename := d.filename, filepath := d.filepath,
             filetype := d.filetype, page_number := 0, chunk_id := ic.1,
             images := [] } : Chunk)) = fun _ => 0 := rfl
      rw [hcomp, List.map_const']
      simp [List.enum_length]
    · rw [List.map_map, List.length_map, List.enum_length]
      exact List.enum_map_fst l

def docPdfW : Document :=
  { content := str "p1", filename := str "a.pdf", filepath := str "/a.pdf",
    filetype := str ".pdf", page_number := 1, images := [] }

theorem claim4_witness :
    docChunks 5 2 docPdfW = [pagChunk docPdfW] ∧
      0 < (pagChunk docPdfW).page_number := by
  have h := claim4_invariant 5 2 [docPdfW] (by
    intro d hd _
    have hd' : d = docPdfW := by simpa using hd
    rw [hd']
    decide)
  obtain ⟨-, h2, -⟩ := h
  have h3 := h2 docPdfW (by simp) (Or.inl rfl)
  exact ⟨h3.1, h3.2.1⟩

/-- C9: aggregation is a pure function of the document list and the
chunker configuration: two runs agree on every `content`, `filename`,
`filetype`, `page_number` and `chunk_id` field. -/
theorem claim9_deterministic (size overlap : Nat) (docs : List Document) :
    (splitDocuments size overlap docs).map
        (fun c => (c.content, c.filename, c.filetype, c.page_number, c.chunk_id)) =
      (splitDocuments size overlap docs).map
        (fun c => (c.content, c.filename, c.filetype, c.page_number, c.chunk_id)) :=
  rfl

/-- The metadata record built by `VectorStore.add_documents`
(src/vector_store.py lines 75-82); `has_images = len(images) > 0`. -/
structure Metadata where
  filename : Str
  filepath : Str
  filetype : Str
  page_number : Nat
  chunk_id : Nat
  has_images : Bool
deriving DecidableEq

/-- Modelled from the spec: an `IndexRecord` of the persistent vector
collection (§3, §6) — `(id, content, metadata, embedding)` written as one
record.  The collection itself is not part of src/ (it is the external
ChromaDB collection), so it is modelled as a list of records; the
globally-unique id generator (`uuid.uuid4()`) is modelled as a fresh-id
counter. -/
structure IndexRecord where
  id : Nat
  content : Str
  metadata : Metadata
  embedding : List Int
deriving DecidableEq

/-- Modelled from the spec: the state of the persistent collection —
the fresh-id source plus the persisted records in insertion order. -/
structure Store where
  nextId : Nat
  records : List IndexRecord
deriving DecidableEq

def chunkMetadata (c : Chunk) : Metadata :=
  { filename := c.filename, filepath := c.filepath, filetype := c.filetype,
    page_number := c.page_number, chunk_id := c.chunk_id,
    has_images := !c.images.isEmpty }

/-- Modelled from the spec: one `collection.add` call (§6) — append the
record and refresh the id source. -/
def addRecord (st : Store) (c : Chunk) (e : List Int) : Store :=
  { nextId := st.nextId + 1,
    records := st.records ++ [⟨st.nextId, c.content, chunkMetadata c, e⟩] }

/-- `VectorStore.add_documents` (src/vector_store.py lines 60-93): for
each chunk in order, build the metadata, call the embedding service
(modelled as the opaque fallible `embed` parameter), and add one record;
an embedding failure raises, aborting the loop — the flag is `false` and
the records added so far remain. -/
def addDocuments (embed : Str → Option (List Int)) :
    Store → List Chunk → Store × Bool
  | st, [] => (st, true)
  | st, c :: rest =>
    match embed c.content with
    | none => (st, false)
    | some e => addDocuments embed (addRecord st c e) rest

/-- `VectorStore.clear_collection` (src/vector_store.py lines 128-134):
delete the collection and recreate it empty under the same name. -/
def clearCollection (st : Store) : Store :=
  { nextId := st.nextId, records := [] }

/-- `VectorStore.get_collection_count` (src/vector_store.py lines
136-138). -/
def collectionCount (st : Store) : Nat := st.records.length

/-- Modelled from the spec: the collection's `query` capability (§6) —
rank all records by non-increasing similarity to the query embedding
(`sim` is the underlying similarity, an opaque parameter) and return the
first `top_k`. -/
def queryRecords (sim : List Int → List Int → Int) (st : Store)
    (e : List Int) (k : Nat) : List IndexRecord :=
  (st.records.mergeSort
    (fun a b => decide (sim e b.embedding ≤ sim e a.embedding))).take k

/-- A formatted search result of `VectorStore.search`
(src/vector_store.py lines 119-126). -/
structure RetrievalResult where
  id : Nat
  content : Str
  metadata : Metadata
deriving DecidableEq

def formatResult (r : IndexRecord) : RetrievalResult :=
  { id := r.id, content := r.content, metadata := r.metadata }

/-- `VectorStore.search` (src/vector_store.py lines 95-126): embed the
query (`none` models a raised `EmbeddingError`), query the collection,
and zip ids, documents and metadatas into result records. -/
def searchStore (embed : Str → Option (List Int))
    (sim : List Int → List Int → Int) (st : Store) (q : Str) (k : Nat) :
    Option (List RetrievalResult) :=
  (embed q).map (fun e => (queryRecords sim st e k).map formatResult)

theorem collectionCount_addRecord (st : Store) (c : Chunk) (e : List Int) :
    collectionCount (addRecord st c e) = collectionCount st + 1 := by
  show (st.records ++ [_]).length = st.records.length + 1
  rw [List.length_append]
  rfl

/-- C6: when every embedding call succeeds, `add_documents` adds exactly
one record per chunk, and `clear_collection` resets the count to 0. -/
theorem claim6_count (embed : Str → Option (List Int)) (st : Store)
    (chunks : List Chunk) (h : ∀ c ∈ chunks, (embed c.content).isSome) :
    collectionCount (addDocuments embed st chunks).1 =
        collectionCount st + chunks.length ∧
      collectionCount (clearCollection st) = 0 := by
  refine ⟨?_, rfl⟩
  induction chunks generalizing st with
  | nil => rfl
  | cons c rest ih =>
    obtain ⟨e, he⟩ : ∃ e, embed c.content = some e := by
      have := h c (by simp)
      cases hemb : embed c.content with
      | none => rw [hemb] at this; simp at this
      | some e => exact ⟨e, rfl⟩
    show collectionCount (addDocuments embed st (c :: rest)).1 = _
    rw [show addDocuments embed st (c :: rest) =
      addDocuments embed (addRecord st c e) rest from by
        rw [addDocuments, he]]
    rw [ih (addRecord st c e) (fun x hx => h x (by simp [hx])),
      collectionCount_addRecord]
    rw [List.length_cons]
    omega

def chunkW : Chunk :=
  { content := str "hello.", filename := str "n.txt", filepath := str "/n.txt",
    filetype := str ".txt", page_number := 0, chunk_id := 0, images := [] }

theorem claim6_witness :
    collectionCount (addDocuments (fun _ => some ([1] : List Int))
        (⟨0, []⟩ : Store) [chunkW]).1 =
      collectionCount (⟨0, []⟩ : Store) + 1 ∧
    collectionCount (clearCollection (⟨0, []⟩ : Store)) = 0 := by
  have h := claim6_count (fun _ => some ([1] : List Int)) ⟨0, []⟩ [chunkW]
    (by intro c hc; rfl)
  simpa using h

/-- C10: `add_documents` is not atomic — if the embedding call fails on
the chunk after `pre`, the error propagates (flag `false`), the chunks
after it are not processed, and exactly the records for `pre` have been
persisted. -/
theorem claim10_partial (embed : Str → Option (List Int)) (st : Store)
    (pre : List Chunk) (c : Chunk) (post : List Chunk)
    (hpre : ∀ x ∈ pre, (embed x.content).isSome)
    (hc : embed c.content = none) :
    (addDocuments embed st (pre ++ c :: post)).2 = false ∧
      collectionCount (addDocuments embed st (pre ++ c :: post)).1 =
        collectionCount st + pre.length := by
  induction pre generalizing st with
  | nil =>
    rw [List.nil_append]
    constructor
    · rw [show addDocuments embed st (c :: post) = (st, false) from by
        rw [addDocuments, hc]]
    · rw [show addDocuments embed st (c :: post) = (st, false) from by
        rw [addDocuments, hc]]
      rfl
  | cons p rest ih =>
    obtain ⟨e, he⟩ : ∃ e, embed p.content = some e := by
      have := hpre p (by simp)
      cases hemb : embed p.content with
      | none => rw [hemb] at this; simp at this
      | some e => exact ⟨e, rfl⟩
    rw [List.cons_append,
      show addDocuments embed st (p :: (rest ++ c :: post)) =
        addDocuments embed (addRecord st p e) (rest ++ c :: post) from by
          rw [addDocuments, he]]
    have hih := ih (addRecord st p e) (fun x hx => hpre x (by simp [hx]))
    refine ⟨hih.1, ?_⟩
    rw [hih.2, collectionCount_addRecord, List.length_cons]
    omega

def chunkBad : Chunk :=
  { content := str "bad", filename := str "n.txt", filepath := str "/n.txt",
    filetype := str ".txt", page_number := 0, chunk_id := 1, images := [] }

theorem claim10_witness :
    (addDocuments (fun s => if s = str "bad" then none else some ([1] : List Int))
        (⟨0, []⟩ : Store) ([chunkW] ++ chunkBad :: [chunkW])).2 = false ∧
      collectionCount (addDocuments
          (fun s => if s = str "bad" then none else some ([1] : List Int))
          (⟨0, []⟩ : Store) ([chunkW] ++ chunkBad :: [chunkW])).1 =
        collectionCount (⟨0, []⟩ : Store) + [chunkW].length :=
  claim10_partial _ ⟨0, []⟩ [chunkW] chunkBad [chunkW]
    (by intro x hx
        have hx' : x = chunkW := by simpa using hx
        subst hx'
        decide)
    (by decide)

/-- C5: a successful search returns the formatted top-`k` records: at
most `k` results (exactly `min k count`), ranked by non-increasing
similarity to the query embedding, and every result is the verbatim
projection (id, content, metadata) of a persisted record. -/
theorem claim5_search (embed : Str → Option (List Int))
    (sim : List Int → List Int → Int) (st : Store) (q : Str) (k : Nat)
    (e : List Int) (he : embed q = some e) :
    searchStore embed sim st q k =
        some ((queryRecords sim st e k).map formatResult) ∧
      (queryRecords sim st e k).length = min k st.records.length ∧
      List.Pairwise
        (fun a b => sim e b.embedding ≤ sim e a.embedding)
        (queryRecords sim st e k) ∧
      ∀ res ∈ (queryRecords sim st e k).map formatResult,
        ∃ r ∈ st.records,
          res.id = r.id ∧ res.content = r.content ∧ res.metadata = r.metadata := by
  refine ⟨?_, ?_, ?_, ?_⟩
  · rw [searchStore, he]
    rfl
  · rw [queryRecords, List.length_take, List.length_mergeSort]
  · have htrans : ∀ a b c : IndexRecord,
        decide (sim e b.embedding ≤ sim e a.embedding) →
        decide (sim e c.embedding ≤ sim e b.embedding) →
        decide (sim e c.embedding ≤ sim e a.embedding) := by
      intro a b c hab hbc
      simp only [decide_eq_true_eq] at hab hbc ⊢
      exact le_trans hbc hab
    have htotal : ∀ a b : IndexRecord,
        (decide (sim e b.embedding ≤ sim e a.embedding) ||
          decide (sim e a.embedding ≤ sim e b.embedding)) = true := by
      intro a b
      simp only [Bool.or_eq_true, decide_eq_true_eq]
      exact le_total _ _
    have hsorted := List.sorted_mergeSort htrans htotal st.records
    have hpw : List.Pairwise
        (fun a b : IndexRecord => sim e b.embedding ≤ sim e a.embedding)
        (st.records.mergeSort
          (fun a b => decide (sim e b.embedding ≤ sim e a.embedding))) := by
      refine hsorted.imp ?_
      intro a b hab
      simpa using hab
    exact hpw.take
  · intro res hres
    rw [List.mem_map] at hres
    obtain ⟨r, hr, hform⟩ := hres
    refine ⟨r, ?_, ?_, ?_, ?_⟩
    · have h1 : r ∈ st.records.mergeSort
          (fun a b => decide (sim e b.embedding ≤ sim e a.embedding)) :=
        (List.take_sublist _ _).subset hr
      exact (List.mergeSort_perm st.records _).subset h1
    · rw [← hform]; rfl
    · rw [← hform]; rfl
    · rw [← hform]; rfl

def storeW : Store :=
  ⟨2, [⟨0, str "ra", ⟨str "f", str "/f", str ".txt", 0, 0, false⟩, [5]⟩,
       ⟨1, str "rb", ⟨str "f", str "/f", str ".txt", 0, 1, false⟩, [9]⟩]⟩

theorem claim5_witness :
    searchStore (fun _ => some ([1] : List Int)) (fun _ v => v.headD 0)
        storeW (str "q") 1 =
      some ((queryRecords (fun _ v => v.headD 0) storeW [1] 1).map
        formatResult) ∧
    (queryRecords (fun _ v => v.headD 0) storeW [1] 1).length =
      min 1 storeW.records.length := by
  have h := claim5_search (fun _ => some ([1] : List Int))
    (fun _ v => v.headD 0) storeW (str "q") 1 [1] rfl
  exact ⟨h.1, h.2.1⟩
